import Mathlib

/-!
Verification of the drama-processor core against its specification.

Durations and timestamps are modelled as rationals, episode libraries as lists
of episode durations, and the filesystem (for the outro cache) as a list of
existing file paths.  Each model definition is a direct translation of the
corresponding Python function in `src/drama_processor`.
-/

/- Definitions: models of the drama-processor core. -/

/-- Exclusion radius set in `AIEnhancedProcessor.__init__` (30 seconds). -/
def exclusionRadius : ℚ := 30

/-- Model of `AIEnhancedProcessor._is_cut_point_excluded`
(ai_enhanced_processor.py lines 134-141): scan the stored used cut points and
report a conflict when a stored point shares the episode index and its
timestamp lies strictly within the exclusion radius of the candidate. -/
def isCutPointExcluded (usedCutPoints : List (Nat × ℚ)) (episodeIdx : Nat)
    (timestamp : ℚ) : Bool :=
  usedCutPoints.any fun p =>
    p.1 == episodeIdx && decide (|timestamp - p.2| < exclusionRadius)

/-- Planner outcome: whether an output directory is handed back, the first
material index to use, and how many more materials to make. -/
structure PlanResult where
  hasOutDir : Bool
  startIndex : Nat
  totalToMake : Nat
deriving Repr, DecidableEq

/-- Model of the planning arithmetic of `DramaProcessor.prepare_project_output_dir`
(processor.py lines 214-255).  `isIncluded` is whether the series was explicitly
requested this run; `latestExistingCount` is `count_existing_materials` of the
most recent existing export directory when one was found (files.py lines
207-211); `targetCount` is the configured material count.  On resume with
`existing ≥ target` the method returns `(None, None, 0, 0)`; on resume with
`existing < target` it continues at `existing + 1` making `target - existing`
more. -/
def preparePlan (isIncluded : Bool) (latestExistingCount : Option Nat)
    (targetCount : Nat) : PlanResult :=
  if isIncluded then ⟨true, 1, targetCount⟩
  else
    match latestExistingCount with
    | some existingCount =>
        if targetCount ≤ existingCount then ⟨false, 0, 0⟩
        else ⟨true, existingCount + 1, targetCount - existingCount⟩
    | none => ⟨true, 1, targetCount⟩

/-- Model of the completion counting of `DramaProcessor.process_project_materials`
(processor.py lines 330-425): with `total_to_make ≤ 0` the method returns
immediately with zero completed; otherwise one task runs per material and the
completed count is the number of successful tasks. -/
def processMaterialsCompleted (totalToMake : Nat) (succeeds : Nat → Bool) : Nat :=
  if totalToMake = 0 then 0
  else ((List.range totalToMake).filter succeeds).length

/-- An external encode attempt, identified by the codec family used. -/
inductive EncAttempt where
  | hw : EncAttempt
  | sw : EncAttempt
deriving Repr, DecidableEq

/-- Model of the codec fallback of `VideoEncoder.norm_and_trim`
(encoder.py lines 276-288): the sequence of encoder attempts made and whether
the call succeeds rather than raising.  With `use_hw` the hardware command runs
first; any exception from it is caught and the software command is run once;
with `use_hw` false an exception propagates unchanged. -/
def normAndTrimAttempts (useHw hwOk swOk : Bool) : List EncAttempt × Bool :=
  if useHw then
    if hwOk then ([EncAttempt.hw], true)
    else ([EncAttempt.hw, EncAttempt.sw], swOk)
  else ([EncAttempt.sw], swOk)

/-- Model of the per-segment loop of `VideoEncoder.process_material`
(encoder.py lines 599-607): each segment is normalised via `norm_and_trim` in
turn, and the material aborts iff some segment's call raises. -/
def processSegmentsOk (useHw : Bool) (segOutcomes : List (Bool × Bool)) : Bool :=
  segOutcomes.all fun o => (normAndTrimAttempts useHw o.1 o.2).2

/-- The cache path derived in `VideoEncoder.get_or_build_tail_norm`
(encoder.py lines 328-335): a key string over the absolute outro path, the
first 8 characters of the content hash, the canvas `WxH@fps` and the hw/sw
tag, hashed and truncated to 16 characters, used as the cache filename.
`hashText`, `fileSig` and `absPath` model the external `md5_of_text`,
`md5_of_file` and `os.path.abspath` collaborators. -/
def tailCachePath (hashText fileSig absPath : String → String) (tailSrc : String)
    (refW refH fps : Nat) (useHw : Bool) (cacheDir : String) : String :=
  let keyStr := absPath tailSrc ++ "|" ++ (fileSig tailSrc).take 8 ++ "|" ++
    toString refW ++ "x" ++ toString refH ++ "@" ++ toString fps ++ "|" ++
    (if useHw then "hw" else "sw")
  cacheDir ++ "/tail_" ++ (hashText keyStr).take 16 ++ ".mp4"

/-- The temporary render target used while building a cache entry
(encoder.py line 341): the cache path with `.tmp.mp4` appended. -/
def tailTmpPath (hashText fileSig absPath : String → String) (tailSrc : String)
    (refW refH fps : Nat) (useHw : Bool) (cacheDir : String) : String :=
  tailCachePath hashText fileSig absPath tailSrc refW refH fps useHw cacheDir ++ ".tmp.mp4"

/-- Outcome of one `get_or_build_tail_norm` call: the files existing
afterwards, the returned cache path (or `none`), and how many external
renders were performed. -/
structure TailNormResult where
  fs : List String
  result : Option String
  renders : Nat
deriving Repr, DecidableEq

/-- Model of `VideoEncoder.get_or_build_tail_norm` (encoder.py lines 321-356)
over a filesystem modelled as the list of existing files.  A missing or empty
outro source returns `none` with no work; an existing file at the derived
cache path with `refresh` false is returned immediately with no render;
otherwise the outro is rendered to a temp file (`renderOk` models the external
render's outcome) which is renamed into place on success, and on failure the
temp artifact is removed and `none` returned. -/
def getOrBuildTailNorm (hashText fileSig absPath : String → String)
    (fs : List String) (tailSrc : String) (refW refH fps : Nat) (useHw : Bool)
    (cacheDir : String) (refresh : Bool) (renderOk : Bool) : TailNormResult :=
  if tailSrc = "" ∨ tailSrc ∉ fs then ⟨fs, none, 0⟩
  else if tailCachePath hashText fileSig absPath tailSrc refW refH fps useHw cacheDir ∈ fs ∧
      refresh = false then
    ⟨fs, some (tailCachePath hashText fileSig absPath tailSrc refW refH fps useHw cacheDir), 0⟩
  else if renderOk then
    ⟨tailCachePath hashText fileSig absPath tailSrc refW refH fps useHw cacheDir ::
        fs.filter (fun q => q ≠ tailTmpPath hashText fileSig absPath tailSrc refW refH fps useHw cacheDir),
      some (tailCachePath hashText fileSig absPath tailSrc refW refH fps useHw cacheDir), 1⟩
  else
    ⟨fs.filter (fun q => q ≠ tailTmpPath hashText fileSig absPath tailSrc refW refH fps useHw cacheDir),
      none, 1⟩

/-- Outcome of the tail-append step of a material encode: the source fed to
the final remux, whether the outro was concatenated, and the produced output
path (`some` means the material was produced). -/
structure MaterialTailOutcome where
  finalSrc : String
  outroAppended : Bool
  output : Option String
deriving Repr, DecidableEq

/-- Model of the tail-append and final-output steps of
`VideoEncoder.process_material` (encoder.py lines 617-652): when a tail file is
configured and exists, the cached normalized tail is requested; only when that
returns a path to an existing file is the outro concatenated; in every case the
final remux runs on the resulting source and produces the output path. -/
def processMaterialTailStep (hashText fileSig absPath : String → String)
    (fs : List String) (concatMain concatWithTail outPath : String)
    (tailFile : Option String) (refW refH fps : Nat) (useHw : Bool)
    (cacheDir : String) (refresh renderOk : Bool) : MaterialTailOutcome :=
  match tailFile with
  | none => ⟨concatMain, false, some outPath⟩
  | some tf =>
    if tf ∈ fs then
      match (getOrBuildTailNorm hashText fileSig absPath fs tf refW refH fps useHw cacheDir
          refresh renderOk) with
      | ⟨fs1, some p, _⟩ =>
          if p ∈ fs1 then ⟨concatWithTail, true, some outPath⟩
          else ⟨concatMain, false, some outPath⟩
      | ⟨_, none, _⟩ => ⟨concatMain, false, some outPath⟩
    else ⟨concatMain, false, some outPath⟩

/-- Deduplication state of an `AIEnhancedProcessor` with deduplication
enabled: the in-memory `used_cut_points` list and the per-series cut-point
files (`store name` is the content of the series' record file, `[]` when the
file does not exist). -/
structure DedupState where
  used : List (Nat × ℚ)
  store : String → List (Nat × ℚ)

/-- Model of `AIEnhancedProcessor._save_used_cut_points`
(ai_enhanced_processor.py lines 95-124): the given list is written to the
series' file, replacing its previous content. -/
def saveUsedCutPoints (st : DedupState) (name : String)
    (pts : List (Nat × ℚ)) : DedupState :=
  ⟨st.used, fun n => if n = name then pts else st.store n⟩

/-- Model of `AIEnhancedProcessor.process_project_materials`
(ai_enhanced_processor.py lines 143-178) with deduplication enabled: the
historical points for the series are loaded and appended to the in-memory
list, processing appends the freshly used points (`newPts`), and when at
least one material completed and new points were recorded the whole
accumulated in-memory list is saved to the series' file.  The in-memory list
is never cleared. -/
def processProjectCutPoints (st : DedupState) (name : String)
    (newPts : List (Nat × ℚ)) (completedCount : Nat) : DedupState :=
  let used1 := st.used ++ st.store name
  let used2 := used1 ++ newPts
  let st2 : DedupState := ⟨used2, st.store⟩
  if 0 < completedCount ∧ 0 < newPts.length then saveUsedCutPoints st2 name used2
  else st2

/-- One scan entry of the segment builder: the episode index, the segment
start inside that episode, the segment end (the episode's probed duration) and
the cumulative running total up to and including this entry -- the tuple
`(i, seg_start, dur, total)` appended at encoder.py line 455. -/
structure Choice where
  idx : Nat
  segStart : ℚ
  segEnd : ℚ
  cum : ℚ
deriving Repr, DecidableEq

/-- Model of `VideoEncoder._calculate_available_duration` (encoder.py lines
497-510): the total watchable content from a start point, counting the first
episode from the offset (clamped at zero) and every later episode in full. -/
def calculateAvailableDuration (episodes : List ℚ) (startIdx : Nat) (startOffset : ℚ) : ℚ :=
  match episodes.drop startIdx with
  | [] => 0
  | d :: rest => max 0 (d - startOffset) + rest.sum

/-- The scan loop of `VideoEncoder.build_segments_at_episode_boundaries`
(encoder.py lines 442-457), walking episodes from the start point: the first
episode (index `startIdx`) contributes from `startOffset`, later episodes from
zero; empty takes are skipped; the scan stops as soon as the running total
reaches `maxSec`.  `l` is the list of remaining episode durations and `i` the
episode index of its head. -/
def buildChoicesGo (startIdx : Nat) (startOffset maxSec : ℚ) :
    List ℚ → Nat → ℚ → List Choice
  | [], _, _ => []
  | d :: rest, i, total =>
    let segStart := if i = startIdx then startOffset else 0
    let tk := max 0 (d - segStart)
    if tk ≤ 0 then buildChoicesGo startIdx startOffset maxSec rest (i + 1) total
    else
      if maxSec ≤ total + tk then [⟨i, segStart, d, total + tk⟩]
      else ⟨i, segStart, d, total + tk⟩ ::
        buildChoicesGo startIdx startOffset maxSec rest (i + 1) (total + tk)

/-- The scanned choice list of the segment builder from a given start point. -/
def buildChoices (episodes : List ℚ) (startIdx : Nat) (startOffset maxSec : ℚ) : List Choice :=
  buildChoicesGo startIdx startOffset maxSec (episodes.drop startIdx) startIdx 0

/-- Position-tagged list entries, mirroring python's `enumerate` used at
encoder.py line 466. -/
def enumerateFrom {α : Type} : Nat → List α → List (Nat × α)
  | _, [] => []
  | n, a :: l => (n, a) :: enumerateFrom (n + 1) l

/-- Leftmost minimiser by a rational key, mirroring python's
`min(..., key=...)` which keeps the first of equal elements. -/
def minByFirst {α : Type} (f : α → ℚ) : List α → Option α
  | [] => none
  | a :: l => some (l.foldl (fun b x => if f x < f b then x else b) a)

/-- The cutoff selection of the segment builder (encoder.py lines 462-479):
among scanned prefixes meeting the minimum duration, prefer those within the
maximum and take the one whose total is closest to the midpoint of the
duration window; when none fits within the maximum take the shortest prefix
meeting the minimum; when no prefix meets the minimum report failure (the
fallback branch that returns `[]`). -/
def chooseCut (choices : List Choice) (minSec maxSec : ℚ) : Option (Nat × Choice) :=
  let targetMid := (minSec + maxSec) / 2
  let validChoices := (enumerateFrom 0 choices).filter fun p => decide (minSec ≤ p.2.cum)
  let preferredChoices := validChoices.filter fun p => decide (p.2.cum ≤ maxSec)
  match minByFirst (fun p => |p.2.cum - targetMid|) preferredChoices with
  | some p => some p
  | none => minByFirst (fun p => p.2.cum) validChoices

/-- The search loop of `VideoEncoder._find_valid_start_point` (encoder.py
lines 512-541), with `l` the suffix `episodes.drop i`.  Episodes are tried
from the beginning: one from whose start less than `minSec` is reachable is
skipped; otherwise a conservative offset of at most 10% into the episode
(clamped so at least `minSec` of the episode itself remains when possible) is
chosen, and accepted when at least `minSec` is reachable from it. -/
def findValidStartPointGo (episodes : List ℚ) (minSec : ℚ) :
    List ℚ → Nat → Option (Nat × ℚ)
  | [], _ => none
  | d :: rest, i =>
    if calculateAvailableDuration episodes i 0 < minSec then
      findValidStartPointGo episodes minSec rest (i + 1)
    else
      if minSec ≤ calculateAvailableDuration episodes i
          (min (max 0 (d - minSec)) (d * (1 / 10))) then
        some (i, min (max 0 (d - minSec)) (d * (1 / 10)))
      else findValidStartPointGo episodes minSec rest (i + 1)

/-- Model of `VideoEncoder._find_valid_start_point` (encoder.py lines
512-541).  `maxSec` is accepted and unused, as in the source. -/
def findValidStartPoint (episodes : List ℚ) (minSec maxSec : ℚ) : Option (Nat × ℚ) :=
  findValidStartPointGo episodes minSec episodes 0

/-- The start-point adjustment prelude of
`VideoEncoder.build_segments_at_episode_boundaries` (encoder.py lines
427-439): when less than `minSec` is reachable from the requested start point
an alternative start point is searched for; `none` means the method returns
`[]` and the material is skipped. -/
def effectiveStart (episodes : List ℚ) (startIdx : Nat) (startOffset minSec maxSec : ℚ) :
    Option (Nat × ℚ) :=
  if calculateAvailableDuration episodes startIdx startOffset < minSec then
    findValidStartPoint episodes minSec maxSec
  else some (startIdx, startOffset)

/-- Total duration of a span list: the final verification sum of encoder.py
lines 486-491, where every span contributes `end - start`. -/
def sumDur (segs : List (Nat × ℚ × ℚ)) : ℚ :=
  (segs.map fun s => s.2.2 - s.2.1).sum

/-- The scan-and-select body of the segment builder run from a given start
point (encoder.py lines 441-495 after the start-point adjustment): build the
choice list, select the cutoff, emit spans `(episode index, start, end)` for
the prefix up to the cutoff, and verify the final duration against `minSec`. -/
def buildFromStart (episodes : List ℚ) (startIdx : Nat) (startOffset minSec maxSec : ℚ) :
    List (Nat × ℚ × ℚ) :=
  let choices := buildChoices episodes startIdx startOffset maxSec
  match chooseCut choices minSec maxSec with
  | none => []
  | some p =>
    let segs := (choices.take (p.1 + 1)).map fun c => (c.idx, c.segStart, c.segEnd)
    if sumDur segs < minSec then [] else segs

/-- Model of `VideoEncoder.build_segments_at_episode_boundaries` (encoder.py
lines 424-495).  Episodes are identified by index into the duration list; a
span is `(episode index, start, end)`; the empty list models the method's `[]`
("skip this material"). -/
def buildSegmentsAtEpisodeBoundaries (episodes : List ℚ) (startIdx : Nat)
    (startOffset minSec maxSec : ℚ) : List (Nat × ℚ × ℚ) :=
  match effectiveStart episodes startIdx startOffset minSec maxSec with
  | none => []
  | some s => buildFromStart episodes s.1 s.2 minSec maxSec

/-- The cumulative durations of the prefixes scanned by the segment builder
(the `cum` column of the choice list). -/
def scannedTotals (episodes : List ℚ) (startIdx : Nat) (startOffset maxSec : ℚ) : List ℚ :=
  (buildChoices episodes startIdx startOffset maxSec).map fun c => c.cum

-- sanity checks

/-- Watchable content past the current scan position, matching
`calculateAvailableDuration` on the dropped suffix. -/
def remainingAvail (startIdx : Nat) (off : ℚ) : List ℚ → Nat → ℚ
  | [], _ => 0
  | d :: rest, i => max 0 (d - (if i = startIdx then off else 0)) + rest.sum

/-- Cumulative-total consistency of a scanned choice list: each entry extends
the previous running total by its own positive span duration. -/
inductive CumConsistent : ℚ → List Choice → Prop where
  | nil (t : ℚ) : CumConsistent t []
  | cons (t : ℚ) (c : Choice) (rest : List Choice)
      (hdur : 0 < c.segEnd - c.segStart)
      (hcum : c.cum = t + (c.segEnd - c.segStart))
      (hrest : CumConsistent c.cum rest) : CumConsistent t (c :: rest)

/- Supporting lemmas. -/

/-- A cache hit: the outro source exists, the cache file exists, and `refresh`
is off, so the call returns the cache path with no render. -/
theorem getOrBuildTailNorm_hit (hashText fileSig absPath : String → String)
    (fs : List String) (tailSrc : String) (refW refH fps : Nat) (useHw : Bool)
    (cacheDir : String) (renderOk : Bool)
    (hsrc : tailSrc ≠ "") (hmem : tailSrc ∈ fs)
    (hcp : tailCachePath hashText fileSig absPath tailSrc refW refH fps useHw cacheDir ∈ fs) :
    getOrBuildTailNorm hashText fileSig absPath fs tailSrc refW refH fps useHw cacheDir
      false renderOk =
    ⟨fs, some (tailCachePath hashText fileSig absPath tailSrc refW refH fps useHw cacheDir), 0⟩ := by
  unfold getOrBuildTailNorm
  rw [if_neg (by push_neg; exact ⟨hsrc, hmem⟩), if_pos ⟨hcp, rfl⟩]

/-- A cache miss whose render succeeds: the temp file is renamed to the cache
path and the cache path returned, with exactly one render. -/
theorem getOrBuildTailNorm_build (hashText fileSig absPath : String → String)
    (fs : List String) (tailSrc : String) (refW refH fps : Nat) (useHw : Bool)
    (cacheDir : String) (refresh : Bool)
    (hsrc : tailSrc ≠ "") (hmem : tailSrc ∈ fs)
    (hmiss : ¬(tailCachePath hashText fileSig absPath tailSrc refW refH fps useHw cacheDir ∈ fs ∧
      refresh = false)) :
    getOrBuildTailNorm hashText fileSig absPath fs tailSrc refW refH fps useHw cacheDir
      refresh true =
    ⟨tailCachePath hashText fileSig absPath tailSrc refW refH fps useHw cacheDir ::
        fs.filter (fun q => q ≠ tailTmpPath hashText fileSig absPath tailSrc refW refH fps useHw cacheDir),
      some (tailCachePath hashText fileSig absPath tailSrc refW refH fps useHw cacheDir), 1⟩ := by
  unfold getOrBuildTailNorm
  rw [if_neg (by push_neg; exact ⟨hsrc, hmem⟩), if_neg hmiss, if_pos rfl]

/-- A cache miss whose render fails: the temp artifact is removed and `none`
returned. -/
theorem getOrBuildTailNorm_fail (hashText fileSig absPath : String → String)
    (fs : List String) (tailSrc : String) (refW refH fps : Nat) (useHw : Bool)
    (cacheDir : String) (refresh : Bool)
    (hsrc : tailSrc ≠ "") (hmem : tailSrc ∈ fs)
    (hmiss : ¬(tailCachePath hashText fileSig absPath tailSrc refW refH fps useHw cacheDir ∈ fs ∧
      refresh = false)) :
    getOrBuildTailNorm hashText fileSig absPath fs tailSrc refW refH fps useHw cacheDir
      refresh false =
    ⟨fs.filter (fun q => q ≠ tailTmpPath hashText fileSig absPath tailSrc refW refH fps useHw cacheDir),
      none, 1⟩ := by
  unfold getOrBuildTailNorm
  rw [if_neg (by push_neg; exact ⟨hsrc, hmem⟩), if_neg hmiss, if_neg (by simp)]

/-- The fold inside `minByFirst` returns an element of the list (or the seed)
of minimal key. -/
theorem minByFirst_foldl_spec {α : Type} (f : α → ℚ) (l : List α) : ∀ (b : α),
    (l.foldl (fun b x => if f x < f b then x else b) b ∈ b :: l) ∧
    f (l.foldl (fun b x => if f x < f b then x else b) b) ≤ f b ∧
    ∀ x ∈ l, f (l.foldl (fun b x => if f x < f b then x else b) b) ≤ f x := by
  induction l with
  | nil =>
    intro b
    exact ⟨List.mem_cons_self b [], le_refl _, by simp⟩
  | cons a t ih =>
    intro b
    simp only [List.foldl_cons]
    by_cases h : f a < f b
    · rw [if_pos h]
      obtain ⟨hm, hb, hall⟩ := ih a
      refine ⟨List.mem_cons_of_mem b hm, hb.trans h.le, ?_⟩
      intro x hx
      rcases List.mem_cons.mp hx with rfl | h1
      · exact hb
      · exact hall x h1
    · rw [if_neg h]
      obtain ⟨hm, hb, hall⟩ := ih b
      refine ⟨?_, hb, ?_⟩
      · rcases List.mem_cons.mp hm with h1 | h1
        · exact List.mem_cons.mpr (Or.inl h1)
        · exact List.mem_cons_of_mem b (List.mem_cons_of_mem a h1)
      · intro x hx
        rcases List.mem_cons.mp hx with rfl | h1
        · exact hb.trans (not_lt.mp h)
        · exact hall x h1

/-- A `minByFirst` result is a member of the list and minimises the key. -/
theorem minByFirst_spec {α : Type} (f : α → ℚ) (l : List α) (a : α)
    (h : minByFirst f l = some a) : a ∈ l ∧ ∀ x ∈ l, f a ≤ f x := by
  cases l with
  | nil => simp [minByFirst] at h
  | cons b t =>
    simp only [minByFirst, Option.some.injEq] at h
    obtain ⟨hm, hb, hall⟩ := minByFirst_foldl_spec f t b
    subst h
    refine ⟨hm, ?_⟩
    intro x hx
    rcases List.mem_cons.mp hx with rfl | h1
    · exact hb
    · exact hall x h1

/-- `minByFirst` returns `none` exactly on the empty list. -/
theorem minByFirst_eq_none_iff {α : Type} (f : α → ℚ) (l : List α) :
    minByFirst f l = none ↔ l = [] := by
  cases l <;> simp [minByFirst]

/-- Positions produced by `enumerateFrom n` are at least `n`. -/
theorem le_of_mem_enumerateFrom {α : Type} :
    ∀ (n : Nat) (xs : List α) (p : Nat × α), p ∈ enumerateFrom n xs → n ≤ p.1 := by
  intro n xs
  induction xs generalizing n with
  | nil => intro p h; simp [enumerateFrom] at h
  | cons a t ih =>
    intro p h
    simp only [enumerateFrom, List.mem_cons] at h
    rcases h with h | h
    · exact h ▸ le_refl n
    · exact (Nat.le_succ n).trans (ih (n + 1) p h)

/-- The element of an `enumerateFrom` pair belongs to the underlying list. -/
theorem mem_of_mem_enumerateFrom {α : Type} :
    ∀ (n : Nat) (xs : List α) (p : Nat × α), p ∈ enumerateFrom n xs → p.2 ∈ xs := by
  intro n xs
  induction xs generalizing n with
  | nil => intro p h; simp [enumerateFrom] at h
  | cons a t ih =>
    intro p h
    simp only [enumerateFrom, List.mem_cons] at h
    rcases h with h | h
    · exact h ▸ List.mem_cons_self a t
    · exact List.mem_cons_of_mem a (ih (n + 1) p h)

/-- Every list member appears in `enumerateFrom` at some position. -/
theorem exists_mem_enumerateFrom {α : Type} :
    ∀ (n : Nat) (xs : List α) (c : α), c ∈ xs → ∃ k, (k, c) ∈ enumerateFrom n xs := by
  intro n xs
  induction xs generalizing n with
  | nil => intro c h; simp at h
  | cons a t ih =>
    intro c h
    rcases List.mem_cons.mp h with h1 | h1
    · exact ⟨n, h1 ▸ List.mem_cons_self _ _⟩
    · obtain ⟨k, hk⟩ := ih (n + 1) c h1
      exact ⟨k, List.mem_cons_of_mem _ hk⟩

/-- Every choice list produced by the scan is cumulative-total consistent. -/
theorem buildChoicesGo_cc (startIdx : Nat) (off maxSec : ℚ) :
    ∀ (l : List ℚ) (i : Nat) (total : ℚ),
      CumConsistent total (buildChoicesGo startIdx off maxSec l i total) := by
  intro l
  induction l with
  | nil => intro i total; exact CumConsistent.nil total
  | cons d rest ih =>
    intro i total
    simp only [buildChoicesGo]
    set s := if i = startIdx then off else 0 with hs
    by_cases h1 : max 0 (d - s) ≤ 0
    · rw [if_pos h1]
      exact ih (i + 1) total
    · rw [if_neg h1]
      push_neg at h1
      have hdur : 0 < d - s := by
        by_contra hc
        push_neg at hc
        rw [max_eq_left hc] at h1
        exact lt_irrefl 0 h1
      have hmax : max 0 (d - s) = d - s := max_eq_right hdur.le
      by_cases h2 : maxSec ≤ total + max 0 (d - s)
      · rw [if_pos h2]
        exact CumConsistent.cons total ⟨i, s, d, total + max 0 (d - s)⟩ []
          hdur (by simp [hmax]) (CumConsistent.nil _)
      · rw [if_neg h2]
        exact CumConsistent.cons total ⟨i, s, d, total + max 0 (d - s)⟩ _
          hdur (by simp [hmax]) (by rw [show (⟨i, s, d, total + max 0 (d - s)⟩ : Choice).cum =
            total + max 0 (d - s) from rfl]; exact ih (i + 1) (total + max 0 (d - s)))

/-- In a cumulative-consistent choice list, the duration of the span prefix up
to position `p.1` equals that entry's cumulative total minus the initial
running total. -/
theorem cc_take_sumDur :
    ∀ (t : ℚ) (xs : List Choice), CumConsistent t xs →
      ∀ (n : Nat) (p : Nat × Choice), p ∈ enumerateFrom n xs →
        sumDur ((xs.take (p.1 - n + 1)).map fun c => (c.idx, c.segStart, c.segEnd)) =
          p.2.cum - t := by
  intro t xs hcc
  induction hcc with
  | nil t => intro n p h; simp [enumerateFrom] at h
  | cons t c rest hdur hcum hrest ih =>
    intro n p h
    simp only [enumerateFrom, List.mem_cons] at h
    rcases h with h | h
    · subst h
      simp only [Nat.sub_self, Nat.zero_add, List.take_succ_cons, List.take_zero]
      simp [sumDur, hcum]
    · have hge := le_of_mem_enumerateFrom (n + 1) rest p h
      have ih2 := ih (n + 1) p h
      have harith : p.1 - n + 1 = (p.1 - (n + 1) + 1) + 1 := by omega
      rw [harith, List.take_succ_cons]
      simp only [List.map_cons, sumDur, List.sum_cons] at ih2 ⊢
      linarith [ih2, hcum]

/-- `calculateAvailableDuration` is `remainingAvail` on the dropped suffix. -/
theorem remainingAvail_drop (eps : List ℚ) (startIdx : Nat) (off : ℚ) :
    calculateAvailableDuration eps startIdx off =
      remainingAvail startIdx off (eps.drop startIdx) startIdx := by
  unfold calculateAvailableDuration
  cases h : eps.drop startIdx with
  | nil => simp [remainingAvail]
  | cons d rest => simp [remainingAvail]

/-- Past the start episode the remaining availability is the plain sum of the
remaining durations. -/
theorem remainingAvail_eq_sum (startIdx : Nat) (off : ℚ) :
    ∀ (l : List ℚ) (i : Nat), startIdx < i → (∀ d ∈ l, 0 ≤ d) →
      remainingAvail startIdx off l i = l.sum := by
  intro l i hi hd
  cases l with
  | nil => simp [remainingAvail]
  | cons d rest =>
    simp only [remainingAvail, List.sum_cons]
    rw [if_neg (by omega), sub_zero, max_eq_right (hd d (List.mem_cons_self d rest))]

/-- When at least `minSec` is still reachable and the running total is below
`minSec`, the scan produces some choice whose cumulative total reaches
`minSec` (it stops only at `maxSec ≥ minSec` or at exhaustion). -/
theorem buildChoicesGo_exists_valid (startIdx : Nat) (off minSec maxSec : ℚ)
    (hmm : minSec ≤ maxSec) :
    ∀ (l : List ℚ) (i : Nat) (total : ℚ), (∀ d ∈ l, 0 ≤ d) → startIdx ≤ i →
      total < minSec → minSec ≤ total + remainingAvail startIdx off l i →
      ∃ c ∈ buildChoicesGo startIdx off maxSec l i total, minSec ≤ c.cum := by
  intro l
  induction l with
  | nil =>
    intro i total hd hi hlt hge
    simp only [remainingAvail] at hge
    linarith
  | cons d rest ih =>
    intro i total hd hi hlt hge
    have hdrest : ∀ x ∈ rest, 0 ≤ x := fun x hx => hd x (List.mem_cons_of_mem d hx)
    simp only [buildChoicesGo]
    simp only [remainingAvail] at hge
    set s := if i = startIdx then off else 0 with hs
    by_cases h1 : max 0 (d - s) ≤ 0
    · have htk0 : max 0 (d - s) = 0 := le_antisymm h1 (le_max_left 0 _)
      rw [if_pos h1]
      refine ih (i + 1) total hdrest (by omega) hlt ?_
      rw [remainingAvail_eq_sum startIdx off rest (i + 1) (by omega) hdrest]
      linarith [hge, htk0]
    · rw [if_neg h1]
      by_cases h2 : maxSec ≤ total + max 0 (d - s)
      · rw [if_pos h2]
        exact ⟨⟨i, s, d, total + max 0 (d - s)⟩, List.mem_singleton_self _, hmm.trans h2⟩
      · rw [if_neg h2]
        by_cases h3 : minSec ≤ total + max 0 (d - s)
        · exact ⟨⟨i, s, d, total + max 0 (d - s)⟩, List.mem_cons_self _ _, h3⟩
        · push_neg at h2 h3
          obtain ⟨c, hc, hcm⟩ := ih (i + 1) (total + max 0 (d - s)) hdrest (by omega) h3
            (by rw [remainingAvail_eq_sum startIdx off rest (i + 1) (by omega) hdrest]; linarith)
          exact ⟨c, List.mem_cons_of_mem _ hc, hcm⟩

/-- The cutoff selection fails exactly when no scanned prefix reaches the
minimum duration. -/
theorem chooseCut_eq_none_iff (choices : List Choice) (minSec maxSec : ℚ) :
    chooseCut choices minSec maxSec = none ↔
      ∀ p ∈ enumerateFrom 0 choices, ¬ minSec ≤ p.2.cum := by
  simp only [chooseCut]
  set valid := (enumerateFrom 0 choices).filter (fun p => decide (minSec ≤ p.2.cum)) with hv
  set pref := valid.filter (fun p => decide (p.2.cum ≤ maxSec)) with hp
  cases hm : minByFirst (fun p => |p.2.cum - (minSec + maxSec) / 2|) pref with
  | some q =>
    simp only [hm]
    constructor
    · intro h; cases h
    · intro h
      exfalso
      obtain ⟨hq, -⟩ := minByFirst_spec _ _ _ hm
      rw [hp] at hq
      have hq2 := List.mem_filter.mp hq
      rw [hv] at hq2
      have hq3 := List.mem_filter.mp hq2.1
      exact h q hq3.1 (of_decide_eq_true hq3.2)
  | none =>
    simp only [hm]
    rw [minByFirst_eq_none_iff]
    rw [hv]
    constructor
    · intro h p hp2 hmin
      exact absurd (decide_eq_true hmin) (List.filter_eq_nil_iff.mp h p hp2)
    · intro h
      apply List.filter_eq_nil_iff.mpr
      intro p hp2
      simp only [decide_eq_true_eq]
      exact h p hp2

/-- A selected cutoff reaches the minimum duration and is either within the
maximum and midpoint-optimal among in-window prefixes, or -- when no prefix
fits the window -- the shortest prefix reaching the minimum. -/
theorem chooseCut_spec (choices : List Choice) (minSec maxSec : ℚ) (p : Nat × Choice)
    (h : chooseCut choices minSec maxSec = some p) :
    p ∈ enumerateFrom 0 choices ∧ minSec ≤ p.2.cum ∧
    ((p.2.cum ≤ maxSec ∧ ∀ q ∈ enumerateFrom 0 choices, minSec ≤ q.2.cum → q.2.cum ≤ maxSec →
        |p.2.cum - (minSec + maxSec) / 2| ≤ |q.2.cum - (minSec + maxSec) / 2|) ∨
     ((∀ q ∈ enumerateFrom 0 choices, minSec ≤ q.2.cum → ¬ q.2.cum ≤ maxSec) ∧
      ∀ q ∈ enumerateFrom 0 choices, minSec ≤ q.2.cum → p.2.cum ≤ q.2.cum)) := by
  simp only [chooseCut] at h
  set valid := (enumerateFrom 0 choices).filter (fun p => decide (minSec ≤ p.2.cum)) with hv
  set pref := valid.filter (fun p => decide (p.2.cum ≤ maxSec)) with hp
  cases hm : minByFirst (fun p => |p.2.cum - (minSec + maxSec) / 2|) pref with
  | some q =>
    rw [hm] at h
    cases h
    obtain ⟨hq, hmin⟩ := minByFirst_spec _ _ _ hm
    have hq1 := List.mem_filter.mp hq
    have hq2 := List.mem_filter.mp hq1.1
    refine ⟨hq2.1, of_decide_eq_true hq2.2, Or.inl ⟨of_decide_eq_true hq1.2, ?_⟩⟩
    intro r hr hrmin hrmax
    exact hmin r (List.mem_filter.mpr ⟨List.mem_filter.mpr ⟨hr, decide_eq_true hrmin⟩,
      decide_eq_true hrmax⟩)
  | none =>
    rw [hm] at h
    have hprefnil : pref = [] := (minByFirst_eq_none_iff _ _).mp hm
    obtain ⟨hq, hmin⟩ := minByFirst_spec _ _ _ h
    have hq2 := List.mem_filter.mp hq
    have hnopref : ∀ q ∈ enumerateFrom 0 choices, minSec ≤ q.2.cum → ¬ q.2.cum ≤ maxSec := by
      intro r hr hrmin hrmax
      have : r ∈ pref := List.mem_filter.mpr ⟨List.mem_filter.mpr ⟨hr, decide_eq_true hrmin⟩,
        decide_eq_true hrmax⟩
      rw [hprefnil] at this
      exact absurd this (List.not_mem_nil r)
    refine ⟨hq2.1, of_decide_eq_true hq2.2, Or.inr ⟨hnopref, ?_⟩⟩
    intro r hr hrmin
    exact hmin r (List.mem_filter.mpr ⟨hr, decide_eq_true hrmin⟩)

/-- A choice reaching the minimum duration guarantees the cutoff selection
succeeds. -/
theorem chooseCut_isSome_of_exists (choices : List Choice) (minSec maxSec : ℚ)
    (h : ∃ c ∈ choices, minSec ≤ c.cum) : ∃ p, chooseCut choices minSec maxSec = some p := by
  cases hc : chooseCut choices minSec maxSec with
  | some p => exact ⟨p, rfl⟩
  | none =>
    exfalso
    obtain ⟨c, hcm, hcmin⟩ := h
    obtain ⟨k, hk⟩ := exists_mem_enumerateFrom 0 choices c hcm
    exact (chooseCut_eq_none_iff choices minSec maxSec).mp hc (k, c) hk hcmin

/-- With a selected cutoff, the builder emits exactly the span prefix up to
the cutoff; its total duration is the cutoff's cumulative total and the final
minimum-duration verification passes. -/
theorem buildFromStart_of_chooseCut (eps : List ℚ) (startIdx : Nat)
    (off minSec maxSec : ℚ) (p : Nat × Choice)
    (hp : chooseCut (buildChoices eps startIdx off maxSec) minSec maxSec = some p) :
    buildFromStart eps startIdx off minSec maxSec =
      ((buildChoices eps startIdx off maxSec).take (p.1 + 1)).map
        (fun c => (c.idx, c.segStart, c.segEnd)) ∧
    sumDur (buildFromStart eps startIdx off minSec maxSec) = p.2.cum ∧
    buildFromStart eps startIdx off minSec maxSec ≠ [] := by
  obtain ⟨hmem, hmin, -⟩ := chooseCut_spec _ _ _ _ hp
  have hcc : CumConsistent 0 (buildChoices eps startIdx off maxSec) :=
    buildChoicesGo_cc startIdx off maxSec (eps.drop startIdx) startIdx 0
  have hsum := cc_take_sumDur 0 _ hcc 0 p hmem
  simp only [Nat.sub_zero, sub_zero] at hsum
  have hne : (buildChoices eps startIdx off maxSec).take (p.1 + 1) ≠ [] := by
    have hcne : buildChoices eps startIdx off maxSec ≠ [] := by
      intro hnil
      rw [hnil] at hmem
      simp [enumerateFrom] at hmem
    cases hch : buildChoices eps startIdx off maxSec with
    | nil => exact absurd hch hcne
    | cons a t => simp [List.take_succ_cons]
  have hbody : buildFromStart eps startIdx off minSec maxSec =
      ((buildChoices eps startIdx off maxSec).take (p.1 + 1)).map
        (fun c => (c.idx, c.segStart, c.segEnd)) := by
    simp only [buildFromStart]
    rw [hp]
    exact if_neg (by rw [hsum]; exact not_lt.mpr hmin)
  refine ⟨hbody, by rw [hbody, hsum], ?_⟩
  rw [hbody]
  simpa using hne

/-- The builder body returns `[]` exactly when the cutoff selection fails. -/
theorem buildFromStart_eq_nil_iff (eps : List ℚ) (startIdx : Nat)
    (off minSec maxSec : ℚ) :
    buildFromStart eps startIdx off minSec maxSec = [] ↔
      chooseCut (buildChoices eps startIdx off maxSec) minSec maxSec = none := by
  cases hc : chooseCut (buildChoices eps startIdx off maxSec) minSec maxSec with
  | some p =>
    obtain ⟨-, -, hne⟩ := buildFromStart_of_chooseCut eps startIdx off minSec maxSec p hc
    simp [hne]
  | none =>
    simp [buildFromStart, hc]

/-- From a start point with at least `minSec` reachable, the builder body
returns a nonempty plan of total duration at least `minSec`. -/
theorem buildFromStart_reaches_min (eps : List ℚ) (startIdx : Nat)
    (off minSec maxSec : ℚ) (hd : ∀ d ∈ eps, 0 ≤ d) (hmin : 0 < minSec)
    (hmm : minSec ≤ maxSec)
    (hav : minSec ≤ calculateAvailableDuration eps startIdx off) :
    buildFromStart eps startIdx off minSec maxSec ≠ [] ∧
    minSec ≤ sumDur (buildFromStart eps startIdx off minSec maxSec) := by
  have hex : ∃ c ∈ buildChoices eps startIdx off maxSec, minSec ≤ c.cum := by
    refine buildChoicesGo_exists_valid startIdx off minSec maxSec hmm
      (eps.drop startIdx) startIdx 0 (fun x hx => hd x (List.mem_of_mem_drop hx))
      (le_refl startIdx) hmin ?_
    rw [zero_add, ← remainingAvail_drop]
    exact hav
  obtain ⟨p, hp⟩ := chooseCut_isSome_of_exists _ _ _ hex
  obtain ⟨-, hsum, hne⟩ := buildFromStart_of_chooseCut eps startIdx off minSec maxSec p hp
  obtain ⟨-, hmin2, -⟩ := chooseCut_spec _ _ _ _ hp
  exact ⟨hne, by rw [hsum]; exact hmin2⟩

/-- A nonnegative offset never increases the available duration. -/
theorem calcAvail_mono_offset (eps : List ℚ) (j : Nat) (o : ℚ) (ho : 0 ≤ o) :
    calculateAvailableDuration eps j o ≤ calculateAvailableDuration eps j 0 := by
  unfold calculateAvailableDuration
  cases h : eps.drop j with
  | nil => exact le_refl 0
  | cons d rest =>
    show max 0 (d - o) + rest.sum ≤ max 0 (d - 0) + rest.sum
    have : max 0 (d - o) ≤ max 0 (d - 0) := max_le_max (le_refl 0) (by linarith)
    linarith

/-- Past the end of the episode list nothing is available. -/
theorem calcAvail_of_ge_length (eps : List ℚ) (j : Nat) (o : ℚ)
    (hj : eps.length ≤ j) : calculateAvailableDuration eps j o = 0 := by
  unfold calculateAvailableDuration
  rw [List.drop_eq_nil_of_le hj]

/-- Available duration unfolded at an in-range start episode. -/
theorem calcAvail_cons (eps : List ℚ) (j : Nat) (hj : j < eps.length) (o : ℚ) :
    calculateAvailableDuration eps j o =
      max 0 (eps.get ⟨j, hj⟩ - o) + (eps.drop (j + 1)).sum := by
  unfold calculateAvailableDuration
  rw [(List.getElem_cons_drop eps j hj).symm]
  rfl

/-- The conservative offset chosen by `_find_valid_start_point` still leaves
at least `minSec` reachable whenever the episode's start does. -/
theorem safe_offset_reaches (eps : List ℚ) (minSec : ℚ)
    (hd : ∀ d ∈ eps, 0 ≤ d) (j : Nat) (hj : j < eps.length)
    (hAj : minSec ≤ calculateAvailableDuration eps j 0) :
    minSec ≤ calculateAvailableDuration eps j
      (min (max 0 (eps.get ⟨j, hj⟩ - minSec)) (eps.get ⟨j, hj⟩ * (1 / 10))) := by
  set d := eps.get ⟨j, hj⟩ with hdd
  set o := min (max 0 (d - minSec)) (d * (1 / 10)) with ho
  have hd0 : 0 ≤ d := hd d (List.get_mem eps j hj)
  have hrest : 0 ≤ (eps.drop (j + 1)).sum :=
    List.sum_nonneg fun x hx => hd x (List.mem_of_mem_drop hx)
  rw [calcAvail_cons eps j hj] at hAj ⊢
  rw [sub_zero, max_eq_right hd0] at hAj
  rcases le_or_lt d minSec with hc | hc
  · have h1 : max 0 (d - minSec) = 0 := max_eq_left (by linarith)
    have h2 : o = 0 := by
      rw [ho, h1]
      exact min_eq_left (by positivity)
    rw [h2, sub_zero, max_eq_right hd0]
    exact hAj
  · have h1 : max 0 (d - minSec) = d - minSec := max_eq_right (by linarith)
    have h2 : o ≤ d - minSec := by
      rw [ho, h1]
      exact min_le_left _ _
    have h3 : minSec ≤ d - o := by linarith
    calc minSec ≤ d - o := h3
      _ ≤ max 0 (d - o) := le_max_right 0 _
      _ ≤ max 0 (d - o) + (eps.drop (j + 1)).sum := by linarith

/-- A nonempty dropped suffix determines the element and the next suffix. -/
theorem drop_cons_head_tail (eps : List ℚ) (i : Nat) (d : ℚ) (rest : List ℚ)
    (h : eps.drop i = d :: rest) :
    ∃ hi : i < eps.length, eps.get ⟨i, hi⟩ = d ∧ eps.drop (i + 1) = rest := by
  have hi : i < eps.length := by
    by_contra hc
    push_neg at hc
    rw [List.drop_eq_nil_of_le hc] at h
    cases h
  have h2 : eps[i] :: eps.drop (i + 1) = d :: rest := by
    rw [List.getElem_cons_drop eps i hi]
    exact h
  have h3 := (List.cons.injEq _ _ _ _).mp h2
  exact ⟨hi, by rw [List.get_eq_getElem]; exact h3.1, h3.2⟩

/-- Soundness of the start-point search loop: a returned point is in range,
uses the conservative offset of its episode, reaches the minimum duration, and
every earlier episode reaches less than the minimum even from its start. -/
theorem findValidStartPointGo_sound (eps : List ℚ) (minSec : ℚ)
    (hd : ∀ d ∈ eps, 0 ≤ d) :
    ∀ (l : List ℚ) (i : Nat), eps.drop i = l → ∀ j o,
      findValidStartPointGo eps minSec l i = some (j, o) →
      i ≤ j ∧ ∃ hj : j < eps.length,
        o = min (max 0 (eps.get ⟨j, hj⟩ - minSec)) (eps.get ⟨j, hj⟩ * (1 / 10)) ∧
        minSec ≤ calculateAvailableDuration eps j o ∧
        minSec ≤ calculateAvailableDuration eps j 0 ∧
        ∀ k, i ≤ k → k < j → calculateAvailableDuration eps k 0 < minSec := by
  intro l
  induction l with
  | nil =>
    intro i hdrop j o h
    simp [findValidStartPointGo] at h
  | cons d rest ih =>
    intro i hdrop j o h
    obtain ⟨hi, hdi, hdrop2⟩ := drop_cons_head_tail eps i d rest hdrop
    simp only [findValidStartPointGo] at h
    by_cases h1 : calculateAvailableDuration eps i 0 < minSec
    · rw [if_pos h1] at h
      obtain ⟨hij, hj, ho, h2, h3, hleast⟩ := ih (i + 1) hdrop2 j o h
      refine ⟨by omega, hj, ho, h2, h3, ?_⟩
      intro k hk1 hk2
      rcases Nat.eq_or_lt_of_le hk1 with rfl | hk3
      · exact h1
      · exact hleast k hk3 hk2
    · rw [if_neg h1] at h
      push_neg at h1
      have hsafe := safe_offset_reaches eps minSec hd i hi h1
      rw [hdi] at hsafe
      rw [if_pos hsafe] at h
      simp only [Option.some.injEq, Prod.mk.injEq] at h
      obtain ⟨rfl, rfl⟩ := h
      refine ⟨le_refl i, hi, by rw [hdi], ?_, h1, ?_⟩
      · rw [← hdi] at hsafe ⊢
        exact hsafe
      · intro k hk1 hk2
        omega

/-- Completeness of the start-point search loop: if it fails, every episode
from the current position reaches less than the minimum from its start. -/
theorem findValidStartPointGo_none (eps : List ℚ) (minSec : ℚ)
    (hd : ∀ d ∈ eps, 0 ≤ d) :
    ∀ (l : List ℚ) (i : Nat), eps.drop i = l →
      findValidStartPointGo eps minSec l i = none →
      ∀ j, i ≤ j → j < eps.length → calculateAvailableDuration eps j 0 < minSec := by
  intro l
  induction l with
  | nil =>
    intro i hdrop h j hij hjlen
    exfalso
    have hlen : eps.length ≤ i := List.drop_eq_nil_iff.mp hdrop
    omega
  | cons d rest ih =>
    intro i hdrop h j hij hjlen
    obtain ⟨hi, hdi, hdrop2⟩ := drop_cons_head_tail eps i d rest hdrop
    simp only [findValidStartPointGo] at h
    by_cases h1 : calculateAvailableDuration eps i 0 < minSec
    · rw [if_pos h1] at h
      rcases Nat.eq_or_lt_of_le hij with rfl | hk3
      · exact h1
      · exact ih (i + 1) hdrop2 h j hk3 hjlen
    · rw [if_neg h1] at h
      push_neg at h1
      have hsafe := safe_offset_reaches eps minSec hd i hi h1
      rw [hdi] at hsafe
      rw [if_pos hsafe] at h
      cases h

/-- Soundness of `_find_valid_start_point`: the returned point `(j, o)` has
`0 ≤ o ≤ 10%` of episode `j`'s duration, reaches `minSec`, and `j` is the
first episode from whose start `minSec` is reachable. -/
theorem findValidStartPoint_sound (eps : List ℚ) (minSec maxSec : ℚ)
    (hd : ∀ d ∈ eps, 0 ≤ d) (j : Nat) (o : ℚ)
    (h : findValidStartPoint eps minSec maxSec = some (j, o)) :
    ∃ hj : j < eps.length,
      o = min (max 0 (eps.get ⟨j, hj⟩ - minSec)) (eps.get ⟨j, hj⟩ * (1 / 10)) ∧
      0 ≤ o ∧
      minSec ≤ calculateAvailableDuration eps j o ∧
      minSec ≤ calculateAvailableDuration eps j 0 ∧
      ∀ k, k < j → calculateAvailableDuration eps k 0 < minSec := by
  obtain ⟨-, hj, ho, h2, h3, hleast⟩ :=
    findValidStartPointGo_sound eps minSec hd eps 0 (by simp) j o h
  have hd0 : 0 ≤ eps.get ⟨j, hj⟩ := hd _ (List.get_mem eps j hj)
  refine ⟨hj, ho, ?_, h2, h3, fun k hk => hleast k (Nat.zero_le k) hk⟩
  rw [ho]
  exact le_min (le_max_left 0 _) (by positivity)

/-- `_find_valid_start_point` fails exactly when no episode reaches `minSec`
from its start. -/
theorem findValidStartPoint_none_iff (eps : List ℚ) (minSec maxSec : ℚ)
    (hd : ∀ d ∈ eps, 0 ≤ d) :
    findValidStartPoint eps minSec maxSec = none ↔
      ∀ j, j < eps.length → calculateAvailableDuration eps j 0 < minSec := by
  constructor
  · intro h j hj
    exact findValidStartPointGo_none eps minSec hd eps 0 (by simp) h j (Nat.zero_le j) hj
  · intro h
    cases hf : findValidStartPoint eps minSec maxSec with
    | none => rfl
    | some p =>
      exfalso
      obtain ⟨j, o⟩ := p
      obtain ⟨hj, -, -, -, h3, -⟩ :=
        findValidStartPoint_sound eps minSec maxSec hd j o hf
      exact absurd h3 (not_le.mpr (h j hj))

/-- With a resolved start point the segment builder runs its body there. -/
theorem buildSegments_of_effectiveStart_some (eps : List ℚ) (i : Nat)
    (off minSec maxSec : ℚ) (s : Nat × ℚ)
    (h : effectiveStart eps i off minSec maxSec = some s) :
    buildSegmentsAtEpisodeBoundaries eps i off minSec maxSec =
      buildFromStart eps s.1 s.2 minSec maxSec := by
  unfold buildSegmentsAtEpisodeBoundaries
  rw [h]

/-- With no resolvable start point the segment builder returns `[]`. -/
theorem buildSegments_of_effectiveStart_none (eps : List ℚ) (i : Nat)
    (off minSec maxSec : ℚ)
    (h : effectiveStart eps i off minSec maxSec = none) :
    buildSegmentsAtEpisodeBoundaries eps i off minSec maxSec = [] := by
  unfold buildSegmentsAtEpisodeBoundaries
  rw [h]

/-- A resolved start point always has at least `minSec` reachable. -/
theorem effectiveStart_avail (eps : List ℚ) (i : Nat) (off minSec maxSec : ℚ)
    (hd : ∀ d ∈ eps, 0 ≤ d) (s : Nat × ℚ)
    (h : effectiveStart eps i off minSec maxSec = some s) :
    minSec ≤ calculateAvailableDuration eps s.1 s.2 := by
  obtain ⟨j, o⟩ := s
  unfold effectiveStart at h
  by_cases h1 : calculateAvailableDuration eps i off < minSec
  · rw [if_pos h1] at h
    obtain ⟨-, -, -, h2, -, -⟩ :=
      findValidStartPoint_sound eps minSec maxSec hd j o h
    exact h2
  · rw [if_neg h1] at h
    cases h
    exact not_lt.mp h1

/-- A first episode whose remaining duration already reaches `maxSec` makes
the scan stop after a single full-tail choice. -/
theorem buildChoicesGo_break (startIdx : Nat) (off maxSec : ℚ) (d : ℚ) (rest : List ℚ)
    (total : ℚ) (htk : 0 < d - off) (hbr : maxSec ≤ total + (d - off)) :
    buildChoicesGo startIdx off maxSec (d :: rest) startIdx total =
      [⟨startIdx, off, d, total + (d - off)⟩] := by
  simp only [buildChoicesGo, eq_self_iff_true, if_true]
  rw [max_eq_right htk.le]
  rw [if_neg (by linarith), if_pos hbr]

/- Claim theorems. -/

/-- C1: for episode durations that are nonnegative, `0 < minDuration ≤
maxDuration` and a nonnegative start offset, the segment builder returns an
empty plan exactly when every valid start point in the series (any episode,
any nonnegative offset) reaches less than `minDuration`; a nonempty plan
always totals at least `minDuration` and either fits within `maxDuration` or
is the best-effort prefix: a scanned total that is the closest reachable value
at or above `minDuration` (hence closest to the target among acceptable
totals). -/
theorem c1_build_segments_window (eps : List ℚ) (i : Nat) (off minSec maxSec : ℚ)
    (hd : ∀ d ∈ eps, 0 ≤ d) (hmin : 0 < minSec) (hmm : minSec ≤ maxSec)
    (hoff : 0 ≤ off) :
    (buildSegmentsAtEpisodeBoundaries eps i off minSec maxSec = [] ↔
      ∀ j o, 0 ≤ o → calculateAvailableDuration eps j o < minSec) ∧
    (buildSegmentsAtEpisodeBoundaries eps i off minSec maxSec ≠ [] →
      minSec ≤ sumDur (buildSegmentsAtEpisodeBoundaries eps i off minSec maxSec) ∧
      (sumDur (buildSegmentsAtEpisodeBoundaries eps i off minSec maxSec) ≤ maxSec ∨
       ∃ s, effectiveStart eps i off minSec maxSec = some s ∧
         sumDur (buildSegmentsAtEpisodeBoundaries eps i off minSec maxSec) ∈
           scannedTotals eps s.1 s.2 maxSec ∧
         ∀ t ∈ scannedTotals eps s.1 s.2 maxSec, minSec ≤ t →
           sumDur (buildSegmentsAtEpisodeBoundaries eps i off minSec maxSec) ≤ t)) := by
  constructor
  · constructor
    · intro hres j o ho
      cases hse : effectiveStart eps i off minSec maxSec with
      | some s =>
        exfalso
        have hav := effectiveStart_avail eps i off minSec maxSec hd s hse
        have hne := (buildFromStart_reaches_min eps s.1 s.2 minSec maxSec hd hmin hmm hav).1
        rw [buildSegments_of_effectiveStart_some eps i off minSec maxSec s hse] at hres
        exact hne hres
      | none =>
        unfold effectiveStart at hse
        by_cases h1 : calculateAvailableDuration eps i off < minSec
        · rw [if_pos h1] at hse
          have hall := (findValidStartPoint_none_iff eps minSec maxSec hd).mp hse
          by_cases hj : j < eps.length
          · exact lt_of_le_of_lt (calcAvail_mono_offset eps j o ho) (hall j hj)
          · rw [calcAvail_of_ge_length eps j o (by omega)]
            exact hmin
        · rw [if_neg h1] at hse
          cases hse
    · intro hall
      have h1 : calculateAvailableDuration eps i off < minSec := hall i off hoff
      have hfind : findValidStartPoint eps minSec maxSec = none := by
        cases hf : findValidStartPoint eps minSec maxSec with
        | none => rfl
        | some p =>
          exfalso
          obtain ⟨j, o⟩ := p
          obtain ⟨hj, -, ho, h2, -, -⟩ :=
            findValidStartPoint_sound eps minSec maxSec hd j o hf
          exact absurd h2 (not_le.mpr (hall j o ho))
      apply buildSegments_of_effectiveStart_none
      unfold effectiveStart
      rw [if_pos h1, hfind]
  · intro hne
    cases hse : effectiveStart eps i off minSec maxSec with
    | none =>
      exact absurd (buildSegments_of_effectiveStart_none eps i off minSec maxSec hse) hne
    | some s =>
      have heq := buildSegments_of_effectiveStart_some eps i off minSec maxSec s hse
      rw [heq] at hne ⊢
      cases hc : chooseCut (buildChoices eps s.1 s.2 maxSec) minSec maxSec with
      | none =>
        exact absurd ((buildFromStart_eq_nil_iff eps s.1 s.2 minSec maxSec).mpr hc) hne
      | some p =>
        obtain ⟨-, hsum, -⟩ := buildFromStart_of_chooseCut eps s.1 s.2 minSec maxSec p hc
        obtain ⟨hmem, hmincum, hdisj⟩ := chooseCut_spec _ _ _ _ hc
        constructor
        · rw [hsum]
          exact hmincum
        · rcases hdisj with ⟨hle, -⟩ | ⟨-, hleast⟩
          · left
            rw [hsum]
            exact hle
          · right
            refine ⟨s, rfl, ?_, ?_⟩
            · rw [hsum]
              simp only [scannedTotals]
              exact List.mem_map_of_mem _ (mem_of_mem_enumerateFrom 0 _ p hmem)
            · intro t ht hmint
              simp only [scannedTotals, List.mem_map] at ht
              obtain ⟨c, hcmem, rfl⟩ := ht
              obtain ⟨k, hk⟩ := exists_mem_enumerateFrom 0 _ c hcmem
              rw [hsum]
              exact hleast (k, c) hk hmint

/-- Witness for C1: with episodes of 500 s and 1000 s and window [600, 900]
the plan is nonempty and totals at least 600 s (best-effort case). -/
theorem c1_build_segments_window_witness :
    (600 : ℚ) ≤ sumDur (buildSegmentsAtEpisodeBoundaries [500, 1000] 0 0 600 900) := by
  have h := c1_build_segments_window [500, 1000] 0 0 600 900
    (by norm_num) (by norm_num) (by norm_num) (le_refl 0)
  refine (h.2 ?_).1
  have heval : buildSegmentsAtEpisodeBoundaries [500, 1000] 0 0 600 900 =
      [(0, 0, 500), (1, 0, 1000)] := by
    norm_num [buildSegmentsAtEpisodeBoundaries, effectiveStart, calculateAvailableDuration,
      buildFromStart, buildChoices, buildChoicesGo, chooseCut, enumerateFrom, minByFirst,
      sumDur, findValidStartPoint, findValidStartPointGo]
  rw [heval]
  exact List.cons_ne_nil _ _

/-- C2 (amended): when the first included episode's remaining duration
`d - offset` exceeds `maxDuration`, the result is a one-span plan, but the
span runs to the episode's full end -- `(i, offset, d)` with `d > offset` and
`offset + maxDuration < d` -- rather than being truncated at `maxDuration`
past the start offset. -/
theorem c2_long_first_episode (eps : List ℚ) (i : Nat) (off minSec maxSec : ℚ)
    (hd : ∀ d ∈ eps, 0 ≤ d) (h0 : 0 ≤ minSec) (hmm : minSec ≤ maxSec)
    (hi : i < eps.length) (hbig : maxSec < eps.get ⟨i, hi⟩ - off) :
    buildSegmentsAtEpisodeBoundaries eps i off minSec maxSec =
      [(i, off, eps.get ⟨i, hi⟩)] ∧
    off < eps.get ⟨i, hi⟩ ∧
    off + maxSec < eps.get ⟨i, hi⟩ := by
  set d := eps.get ⟨i, hi⟩ with hdd
  have hd0 : 0 ≤ d := hd d (List.get_mem eps i hi)
  have hrest : 0 ≤ (eps.drop (i + 1)).sum :=
    List.sum_nonneg fun x hx => hd x (List.mem_of_mem_drop hx)
  have hdo : 0 < d - off := by linarith
  have havail : minSec ≤ calculateAvailableDuration eps i off := by
    rw [calcAvail_cons eps i hi]
    have h1 : d - off ≤ max 0 (d - off) := le_max_right 0 _
    linarith
  have hse : effectiveStart eps i off minSec maxSec = some (i, off) := by
    unfold effectiveStart
    rw [if_neg (not_lt.mpr havail)]
  have hdrop : eps.drop i = d :: eps.drop (i + 1) := by
    rw [hdd]
    exact (List.getElem_cons_drop eps i hi).symm
  have hchoices : buildChoices eps i off maxSec = [⟨i, off, d, 0 + (d - off)⟩] := by
    unfold buildChoices
    rw [hdrop]
    exact buildChoicesGo_break i off maxSec d (eps.drop (i + 1)) 0 hdo (by linarith)
  have hv : minSec ≤ (0 : ℚ) + (d - off) := by linarith
  have hnp : ¬((0 : ℚ) + (d - off) ≤ maxSec) := by linarith
  have hcut : chooseCut [⟨i, off, d, 0 + (d - off)⟩] minSec maxSec =
      some (0, ⟨i, off, d, 0 + (d - off)⟩) := by
    simp only [chooseCut, enumerateFrom]
    rw [List.filter_cons, List.filter_nil]
    simp only [decide_eq_true_eq]
    rw [if_pos hv]
    rw [List.filter_cons, List.filter_nil]
    simp only [decide_eq_true_eq]
    rw [if_neg hnp]
    simp [minByFirst]
  have hbuild : buildFromStart eps i off minSec maxSec = [(i, off, d)] := by
    simp only [buildFromStart]
    rw [hchoices, hcut]
    exact if_neg (by simp [sumDur]; linarith)
  refine ⟨?_, by linarith, by linarith⟩
  rw [buildSegments_of_effectiveStart_some eps i off minSec maxSec (i, off) hse]
  exact hbuild

/-- C2 counterexample: with a single 2000 s episode, start offset 0 and window
[600, 900], the builder returns the span `(0, 0, 2000)` whose end time 2000 is
not `offset + maxDuration = 900`: the span is not truncated as the claim
states. -/
theorem c2_truncation_counterexample :
    buildSegmentsAtEpisodeBoundaries [2000] 0 0 600 900 = [(0, 0, 2000)] ∧
    ¬((0 : ℚ) + 900 = 2000) := by
  constructor
  · norm_num [buildSegmentsAtEpisodeBoundaries, effectiveStart, calculateAvailableDuration,
      buildFromStart, buildChoices, buildChoicesGo, chooseCut, enumerateFrom, minByFirst,
      sumDur, findValidStartPoint, findValidStartPointGo]
  · norm_num

/-- Witness for the amended C2: a 1500 s episode entered at offset 100 with
window [600, 900] yields the single span `(1, 100, 1500)` running to the
episode's full end. -/
theorem c2_long_first_episode_witness :
    buildSegmentsAtEpisodeBoundaries [0, 1500] 1 100 600 900 = [(1, 100, 1500)] ∧
    (100 : ℚ) < 1500 ∧ (100 : ℚ) + 900 < 1500 :=
  c2_long_first_episode [0, 1500] 1 100 600 900 (by norm_num) (by norm_num) (by norm_num)
    (by norm_num) (by show (900 : ℚ) < 1500 - 100; norm_num)

/-- C3: when the start point needs no adjustment and some scanned prefix total
lies within `[minDuration, maxDuration]`, the returned plan's total lies in
the window and is at least as close to the midpoint `(min + max) / 2` as every
in-window scanned prefix total; in particular three episodes of 300 s, 400 s
and 500 s with window [600, 900] yield episodes 0 and 1 in full (700 s). -/
theorem c3_midpoint_selection (eps : List ℚ) (i : Nat) (off minSec maxSec : ℚ)
    (hav : minSec ≤ calculateAvailableDuration eps i off)
    (hex : ∃ t ∈ scannedTotals eps i off maxSec, minSec ≤ t ∧ t ≤ maxSec) :
    (minSec ≤ sumDur (buildSegmentsAtEpisodeBoundaries eps i off minSec maxSec) ∧
     sumDur (buildSegmentsAtEpisodeBoundaries eps i off minSec maxSec) ≤ maxSec ∧
     ∀ t ∈ scannedTotals eps i off maxSec, minSec ≤ t → t ≤ maxSec →
       |sumDur (buildSegmentsAtEpisodeBoundaries eps i off minSec maxSec) -
          (minSec + maxSec) / 2| ≤ |t - (minSec + maxSec) / 2|) ∧
    buildSegmentsAtEpisodeBoundaries [300, 400, 500] 0 0 600 900 =
      [(0, 0, 300), (1, 0, 400)] := by
  have hse : effectiveStart eps i off minSec maxSec = some (i, off) := by
    unfold effectiveStart
    rw [if_neg (not_lt.mpr hav)]
  have heq := buildSegments_of_effectiveStart_some eps i off minSec maxSec (i, off) hse
  obtain ⟨t0, ht0, ht0min, ht0max⟩ := hex
  simp only [scannedTotals, List.mem_map] at ht0
  obtain ⟨c0, hc0mem, rfl⟩ := ht0
  obtain ⟨p, hp⟩ := chooseCut_isSome_of_exists _ minSec maxSec ⟨c0, hc0mem, ht0min⟩
  obtain ⟨hbody, hsum, -⟩ := buildFromStart_of_chooseCut eps i off minSec maxSec p hp
  obtain ⟨hmem, hmincum, hdisj⟩ := chooseCut_spec _ _ _ _ hp
  obtain ⟨k0, hk0⟩ := exists_mem_enumerateFrom 0 _ c0 hc0mem
  rcases hdisj with ⟨hle, hopt⟩ | ⟨hnopref, -⟩
  · refine ⟨⟨?_, ?_, ?_⟩, ?_⟩
    · rw [heq, hsum]
      exact hmincum
    · rw [heq, hsum]
      exact hle
    · intro t ht htmin htmax
      simp only [scannedTotals, List.mem_map] at ht
      obtain ⟨c, hcmem, rfl⟩ := ht
      obtain ⟨k, hk⟩ := exists_mem_enumerateFrom 0 _ c hcmem
      rw [heq, hsum]
      exact hopt (k, c) hk htmin htmax
    · norm_num [buildSegmentsAtEpisodeBoundaries, effectiveStart, calculateAvailableDuration,
        buildFromStart, buildChoices, buildChoicesGo, chooseCut, enumerateFrom, minByFirst,
        sumDur, findValidStartPoint, findValidStartPointGo]
  · exact absurd ht0max (hnopref (k0, c0) hk0 ht0min)

/-- Witness for C3: the spec's scenario A input has its plan total within
[600, 900]. -/
theorem c3_midpoint_selection_witness :
    (600 : ℚ) ≤ sumDur (buildSegmentsAtEpisodeBoundaries [300, 400, 500] 0 0 600 900) ∧
    sumDur (buildSegmentsAtEpisodeBoundaries [300, 400, 500] 0 0 600 900) ≤ 900 := by
  have h := c3_midpoint_selection [300, 400, 500] 0 0 600 900
    (by norm_num [calculateAvailableDuration])
    ⟨700, by norm_num [scannedTotals, buildChoices, buildChoicesGo], by norm_num, by norm_num⟩
  exact ⟨h.1.1, h.1.2.1⟩

/-- C4: when less than `minDuration` is reachable from the requested start
point, the builder searches episodes from the beginning; it fails exactly when
no episode admits a point with offset at most 10% of that episode's duration
reaching `minDuration`; equivalently the whole build is empty exactly when the
search fails; and a found point `(j, o)` has `0 ≤ o ≤ 10%` of episode `j`,
reaches `minDuration`, lies in the first episode admitting such a point (all
earlier start points reach less than `minDuration`), and the plan is built
from it. -/
theorem c4_alternative_start (eps : List ℚ) (i : Nat) (off minSec maxSec : ℚ)
    (hd : ∀ d ∈ eps, 0 ≤ d) (hmin : 0 < minSec) (hmm : minSec ≤ maxSec)
    (hlow : calculateAvailableDuration eps i off < minSec) :
    (findValidStartPoint eps minSec maxSec = none ↔
      ¬∃ j, ∃ hj : j < eps.length, ∃ o, 0 ≤ o ∧ o ≤ eps.get ⟨j, hj⟩ * (1 / 10) ∧
        minSec ≤ calculateAvailableDuration eps j o) ∧
    (buildSegmentsAtEpisodeBoundaries eps i off minSec maxSec = [] ↔
      findValidStartPoint eps minSec maxSec = none) ∧
    ∀ j o, findValidStartPoint eps minSec maxSec = some (j, o) →
      (∃ hj : j < eps.length, 0 ≤ o ∧ o ≤ eps.get ⟨j, hj⟩ * (1 / 10)) ∧
      minSec ≤ calculateAvailableDuration eps j o ∧
      (∀ k o2, k < j → 0 ≤ o2 → calculateAvailableDuration eps k o2 < minSec) ∧
      buildSegmentsAtEpisodeBoundaries eps i off minSec maxSec =
        buildFromStart eps j o minSec maxSec := by
  have hse : effectiveStart eps i off minSec maxSec =
      findValidStartPoint eps minSec maxSec := by
    unfold effectiveStart
    rw [if_pos hlow]
  refine ⟨?_, ?_, ?_⟩
  · constructor
    · intro hnone
      rintro ⟨j, hj, o, ho, h10, hav⟩
      have hall := (findValidStartPoint_none_iff eps minSec maxSec hd).mp hnone
      exact absurd hav
        (not_le.mpr (lt_of_le_of_lt (calcAvail_mono_offset eps j o ho) (hall j hj)))
    · intro hno
      apply (findValidStartPoint_none_iff eps minSec maxSec hd).mpr
      intro j hj
      by_contra hc
      push_neg at hc
      refine absurd ?_ hno
      refine ⟨j, hj, 0, le_refl 0, ?_, ?_⟩
      · have : 0 ≤ eps.get ⟨j, hj⟩ := hd _ (List.get_mem eps j hj)
        positivity
      · exact hc
  · cases hf : findValidStartPoint eps minSec maxSec with
    | none =>
      rw [hf] at hse
      simp [buildSegments_of_effectiveStart_none eps i off minSec maxSec hse]
    | some p =>
      obtain ⟨j, o⟩ := p
      rw [hf] at hse
      have heq := buildSegments_of_effectiveStart_some eps i off minSec maxSec (j, o) hse
      obtain ⟨hj, -, -, hav, -, -⟩ := findValidStartPoint_sound eps minSec maxSec hd j o hf
      have hne := (buildFromStart_reaches_min eps j o minSec maxSec hd hmin hmm hav).1
      constructor
      · intro hnil
        rw [heq] at hnil
        exact absurd hnil hne
      · intro h
        cases h
  · intro j o hf
    obtain ⟨hj, ho, hge0, hav, -, hleast⟩ :=
      findValidStartPoint_sound eps minSec maxSec hd j o hf
    refine ⟨⟨hj, hge0, ?_⟩, hav, ?_, ?_⟩
    · rw [ho]
      exact min_le_right _ _
    · intro k o2 hk ho2
      exact lt_of_le_of_lt (calcAvail_mono_offset eps k o2 ho2) (hleast k hk)
    · rw [hf] at hse
      exact buildSegments_of_effectiveStart_some eps i off minSec maxSec (j, o) hse

/-- Witness for C4 (spec scenario B): a single 200 s episode with
`minDuration` 480 s admits no valid start point, so the build is empty. -/
theorem c4_alternative_start_witness :
    buildSegmentsAtEpisodeBoundaries [200] 0 0 480 900 = [] := by
  have h := c4_alternative_start [200] 0 0 480 900
    (by norm_num) (by norm_num) (by norm_num) (by norm_num [calculateAvailableDuration])
  exact h.2.1.mpr (by norm_num [findValidStartPoint, findValidStartPointGo,
    calculateAvailableDuration])

/-- C5: two calls with identical parameters and `refresh` false perform the
external render at most once and both return the derived cache path; the
second call hits the cache because the file exists, which also covers a
process restart since only the filesystem carries state between the calls. -/
theorem c5_outro_cache_idempotent (hashText fileSig absPath : String → String)
    (fs : List String) (tailSrc : String) (refW refH fps : Nat) (useHw : Bool)
    (cacheDir : String)
    (hsrc : tailSrc ≠ "") (hmem : tailSrc ∈ fs)
    (htmp : tailSrc ≠ tailTmpPath hashText fileSig absPath tailSrc refW refH fps useHw cacheDir) :
    (getOrBuildTailNorm hashText fileSig absPath fs tailSrc refW refH fps useHw cacheDir false true).renders +
      (getOrBuildTailNorm hashText fileSig absPath
        (getOrBuildTailNorm hashText fileSig absPath fs tailSrc refW refH fps useHw cacheDir false true).fs
        tailSrc refW refH fps useHw cacheDir false true).renders ≤ 1 ∧
    (getOrBuildTailNorm hashText fileSig absPath fs tailSrc refW refH fps useHw cacheDir false true).result =
      some (tailCachePath hashText fileSig absPath tailSrc refW refH fps useHw cacheDir) ∧
    (getOrBuildTailNorm hashText fileSig absPath
        (getOrBuildTailNorm hashText fileSig absPath fs tailSrc refW refH fps useHw cacheDir false true).fs
        tailSrc refW refH fps useHw cacheDir false true).result =
      some (tailCachePath hashText fileSig absPath tailSrc refW refH fps useHw cacheDir) := by
  by_cases hhit :
      tailCachePath hashText fileSig absPath tailSrc refW refH fps useHw cacheDir ∈ fs
  · rw [getOrBuildTailNorm_hit hashText fileSig absPath fs tailSrc refW refH fps useHw cacheDir
      true hsrc hmem hhit]
    rw [getOrBuildTailNorm_hit hashText fileSig absPath fs tailSrc refW refH fps useHw cacheDir
      true hsrc hmem hhit]
    exact ⟨by simp, rfl, rfl⟩
  · rw [getOrBuildTailNorm_build hashText fileSig absPath fs tailSrc refW refH fps useHw cacheDir
      false hsrc hmem (fun h => hhit h.1)]
    have hmem2 : tailSrc ∈
        tailCachePath hashText fileSig absPath tailSrc refW refH fps useHw cacheDir ::
          fs.filter (fun q =>
            q ≠ tailTmpPath hashText fileSig absPath tailSrc refW refH fps useHw cacheDir) :=
      List.mem_cons_of_mem _ (List.mem_filter.mpr ⟨hmem, by simpa using htmp⟩)
    rw [getOrBuildTailNorm_hit hashText fileSig absPath _ tailSrc refW refH fps useHw cacheDir
      true hsrc hmem2 (List.mem_cons_self _ _)]
    exact ⟨by simp, rfl, rfl⟩

/-- Witness for C5 at a concrete filesystem and parameter set: the render runs
at most once across the two calls. -/
theorem c5_outro_cache_idempotent_witness :
    (getOrBuildTailNorm (fun s => s) (fun _ => "sig") (fun s => s)
      ["outro.mp4"] "outro.mp4" 1080 1920 30 true "cache" false true).renders +
    (getOrBuildTailNorm (fun s => s) (fun _ => "sig") (fun s => s)
      (getOrBuildTailNorm (fun s => s) (fun _ => "sig") (fun s => s)
        ["outro.mp4"] "outro.mp4" 1080 1920 30 true "cache" false true).fs
      "outro.mp4" 1080 1920 30 true "cache" false true).renders ≤ 1 :=
  (c5_outro_cache_idempotent (fun s => s) (fun _ => "sig") (fun s => s)
    ["outro.mp4"] "outro.mp4" 1080 1920 30 true "cache"
    (by decide) (by decide) (by decide)).1

/-- C6: the exclusion predicate returns true iff some stored point `(e, t)` has
`e` equal to the candidate episode and `|t - t'| < 30`; in particular points in
different episodes never conflict. -/
theorem c6_exclusion_correct (used : List (Nat × ℚ)) (e : Nat) (t : ℚ) :
    (isCutPointExcluded used e t = true ↔
      ∃ p ∈ used, p.1 = e ∧ |p.2 - t| < exclusionRadius) ∧
    ((∀ p ∈ used, p.1 ≠ e) → isCutPointExcluded used e t = false) := by
  constructor
  · simp only [isCutPointExcluded, List.any_eq_true, Bool.and_eq_true, beq_iff_eq,
      decide_eq_true_eq]
    constructor
    · rintro ⟨p, hp, he, hd⟩
      exact ⟨p, hp, he, by rwa [abs_sub_comm]⟩
    · rintro ⟨p, hp, he, hd⟩
      exact ⟨p, hp, he, by rwa [abs_sub_comm]⟩
  · intro h
    simp only [isCutPointExcluded, List.any_eq_false, Bool.and_eq_true, beq_iff_eq,
      decide_eq_true_eq, not_and]
    intro p hp he
    exact absurd he (h p hp)

/-- Witness for C6 at concrete inputs: `(0, 10)` stored, candidate `(0, 25)`
conflicts (distance 15 < 30) and candidate episode 1 never conflicts. -/
theorem c6_exclusion_correct_witness :
    isCutPointExcluded [(0, (10 : ℚ))] 0 25 = true ∧
    isCutPointExcluded [(0, (10 : ℚ))] 1 25 = false := by
  refine ⟨(c6_exclusion_correct [(0, (10 : ℚ))] 0 25).1.mpr
      ⟨(0, 10), by simp, rfl, by norm_num [exclusionRadius]⟩,
    (c6_exclusion_correct [(0, (10 : ℚ))] 1 25).2 ?_⟩
  intro p hp
  simp only [List.mem_singleton] at hp
  simp [hp]

/- ----------------------------------------------------------------- -/
/- Export-directory planning (DramaProcessor)                         -/
/- ----------------------------------------------------------------- -/

/-- C7: resuming a series whose latest directory holds `k` materials with target
`target` requests exactly `target - k` more starting at index `k + 1` when
`k < target`, and requests `0` (skipping the series, so nothing is produced)
when `k ≥ target`. -/
theorem c7_resume_correct (k target : Nat) (succeeds : Nat → Bool) :
    (k < target →
      preparePlan false (some k) target = ⟨true, k + 1, target - k⟩) ∧
    (target ≤ k →
      preparePlan false (some k) target = ⟨false, 0, 0⟩ ∧
      processMaterialsCompleted
        (preparePlan false (some k) target).totalToMake succeeds = 0) := by
  constructor
  · intro h
    simp [preparePlan, Nat.not_le.mpr h]
  · intro h
    simp [preparePlan, h, processMaterialsCompleted]

/-- Witness for C7 (spec scenario D): 7 of 10 materials exist, so the planner
yields start index 8 and count 3; with 12 of 10 it yields count 0. -/
theorem c7_resume_correct_witness :
    preparePlan false (some 7) 10 = ⟨true, 8, 3⟩ ∧
    preparePlan false (some 12) 10 = ⟨false, 0, 0⟩ :=
  ⟨(c7_resume_correct 7 10 (fun _ => true)).1 (by decide),
    ((c7_resume_correct 12 10 (fun _ => true)).2 (by decide)).1⟩

/- ----------------------------------------------------------------- -/
/- Hardware → software encode fallback (VideoEncoder.norm_and_trim)   -/
/- ----------------------------------------------------------------- -/

/-- C8: with hardware preferred the hardware encode is attempted first and any
failure is retried with the software encoder before an error propagates; the
fallback is per segment, so a material succeeds whenever every segment has a
working hardware or software path; without hardware preference a failure
propagates with no retry. -/
theorem c8_fallback_policy (hwOk swOk : Bool) (segs : List (Bool × Bool)) :
    (normAndTrimAttempts true hwOk swOk).1.head? = some EncAttempt.hw ∧
    (hwOk = false →
      normAndTrimAttempts true hwOk swOk = ([EncAttempt.hw, EncAttempt.sw], swOk)) ∧
    normAndTrimAttempts false hwOk swOk = ([EncAttempt.sw], swOk) ∧
    ((∀ o ∈ segs, o.1 = true ∨ o.2 = true) → processSegmentsOk true segs = true) := by
  refine ⟨?_, ?_, rfl, ?_⟩
  · cases hwOk <;> rfl
  · intro h; subst h; rfl
  · intro h
    simp only [processSegmentsOk, List.all_eq_true]
    intro o ho
    rcases h o ho with h1 | h1 <;> rw [h1] <;> cases o.1 <;> cases o.2 <;>
      simp_all [normAndTrimAttempts]

/-- Witness for C8: one segment whose hardware encode fails but whose software
retry succeeds does not abort the material. -/
theorem c8_fallback_policy_witness :
    normAndTrimAttempts true false true = ([EncAttempt.hw, EncAttempt.sw], true) ∧
    processSegmentsOk true [(false, true)] = true :=
  ⟨(c8_fallback_policy false true [(false, true)]).2.1 rfl,
    (c8_fallback_policy false true [(false, true)]).2.2.2 (by decide)⟩

/- ----------------------------------------------------------------- -/
/- Outro cache (VideoEncoder.get_or_build_tail_norm)                  -/
/- ----------------------------------------------------------------- -/

/-- C9: when the external render of the outro fails, the temp artifact is
deleted, no file appears at the cache path, and `none` is returned; an encode
job that receives `none` concatenates no outro and still produces its output. -/
theorem c9_cache_failure_non_fatal (hashText fileSig absPath : String → String)
    (fs : List String) (tailSrc concatMain concatWithTail outPath : String)
    (refW refH fps : Nat) (useHw : Bool) (cacheDir : String) (refresh : Bool)
    (hsrc : tailSrc ≠ "") (hmem : tailSrc ∈ fs)
    (hmiss : tailCachePath hashText fileSig absPath tailSrc refW refH fps useHw cacheDir ∉ fs) :
    (getOrBuildTailNorm hashText fileSig absPath fs tailSrc refW refH fps useHw cacheDir
        refresh false).result = none ∧
    tailTmpPath hashText fileSig absPath tailSrc refW refH fps useHw cacheDir ∉
      (getOrBuildTailNorm hashText fileSig absPath fs tailSrc refW refH fps useHw cacheDir
        refresh false).fs ∧
    tailCachePath hashText fileSig absPath tailSrc refW refH fps useHw cacheDir ∉
      (getOrBuildTailNorm hashText fileSig absPath fs tailSrc refW refH fps useHw cacheDir
        refresh false).fs ∧
    processMaterialTailStep hashText fileSig absPath fs concatMain concatWithTail outPath
        (some tailSrc) refW refH fps useHw cacheDir refresh false =
      ⟨concatMain, false, some outPath⟩ := by
  have hstep := getOrBuildTailNorm_fail hashText fileSig absPath fs tailSrc refW refH fps
    useHw cacheDir refresh hsrc hmem (fun h => hmiss h.1)
  refine ⟨by rw [hstep], ?_, ?_, ?_⟩
  · rw [hstep]
    simp [List.mem_filter]
  · rw [hstep]
    intro h
    exact hmiss (List.mem_filter.mp h).1
  · simp only [processMaterialTailStep]
    rw [if_pos hmem, hstep]

/-- Witness for C9 at a concrete filesystem: render failure leaves no cache
file, and the material still comes out without the outro. -/
theorem c9_cache_failure_non_fatal_witness :
    (getOrBuildTailNorm (fun s => s) (fun _ => "sig") (fun s => s)
        ["outro.mp4"] "outro.mp4" 1080 1920 30 true "cache" false false).result = none ∧
    processMaterialTailStep (fun s => s) (fun _ => "sig") (fun s => s)
        ["outro.mp4"] "main.mp4" "with_tail.mp4" "out.mp4"
        (some "outro.mp4") 1080 1920 30 true "cache" false false =
      ⟨"main.mp4", false, some "out.mp4"⟩ := by
  have h := c9_cache_failure_non_fatal (fun s => s) (fun _ => "sig") (fun s => s)
    ["outro.mp4"] "outro.mp4" "main.mp4" "with_tail.mp4" "out.mp4"
    1080 1920 30 true "cache" false (by decide) (by decide) (by decide)
  exact ⟨h.1, h.2.2.2⟩

/- ----------------------------------------------------------------- -/
/- Cut-point accumulation across series (AIEnhancedProcessor)         -/
/- ----------------------------------------------------------------- -/

/-- C10: across two sequential series in one run the in-memory list only
grows (the state before the second series is a prefix of the state after),
and the file saved for the second series contains its own loaded history as
a sublist together with every point recorded for the first series. -/
theorem c10_cut_points_accumulate (st0 : DedupState) (nameA nameB : String)
    (newA newB : List (Nat × ℚ)) (cA cB : Nat)
    (hcB : 0 < cB) (hnewB : 0 < newB.length) :
    (∃ t, (processProjectCutPoints (processProjectCutPoints st0 nameA newA cA)
        nameB newB cB).used =
      (processProjectCutPoints st0 nameA newA cA).used ++ t) ∧
    List.Sublist ((processProjectCutPoints st0 nameA newA cA).store nameB)
      ((processProjectCutPoints (processProjectCutPoints st0 nameA newA cA)
        nameB newB cB).store nameB) ∧
    List.Sublist newA
      ((processProjectCutPoints (processProjectCutPoints st0 nameA newA cA)
        nameB newB cB).store nameB) := by
  set st1 := processProjectCutPoints st0 nameA newA cA with hst1
  have hused1 : st1.used = st0.used ++ st0.store nameA ++ newA := by
    rw [hst1]
    unfold processProjectCutPoints
    split <;> simp [saveUsedCutPoints]
  have hstep : processProjectCutPoints st1 nameB newB cB =
      saveUsedCutPoints ⟨st1.used ++ st1.store nameB ++ newB, st1.store⟩ nameB
        (st1.used ++ st1.store nameB ++ newB) := by
    unfold processProjectCutPoints
    rw [if_pos ⟨hcB, hnewB⟩]
  have hsaved : (processProjectCutPoints st1 nameB newB cB).store nameB =
      st1.used ++ st1.store nameB ++ newB := by
    rw [hstep]
    simp [saveUsedCutPoints]
  refine ⟨⟨st1.store nameB ++ newB, ?_⟩, ?_, ?_⟩
  · rw [hstep]
    simp [saveUsedCutPoints, List.append_assoc]
  · rw [hsaved]
    exact (List.sublist_append_right st1.used (st1.store nameB)).trans
      (List.sublist_append_left _ _)
  · rw [hsaved]
    have h1 : List.Sublist newA st1.used := by
      rw [hused1]
      exact List.sublist_append_right _ _
    exact h1.trans ((List.sublist_append_left _ _).trans (List.sublist_append_left _ _))

/-- Witness for C10 at a concrete two-series run: the file saved for the
second series contains the point recorded for the first series. -/
theorem c10_cut_points_accumulate_witness :
    List.Sublist [((0 : Nat), (5 : ℚ))]
      ((processProjectCutPoints
          (processProjectCutPoints ⟨[], fun _ => []⟩ "A" [(0, 5)] 1)
          "B" [(1, 7)] 1).store "B") :=
  (c10_cut_points_accumulate ⟨[], fun _ => []⟩ "A" "B" [(0, 5)] [(1, 7)] 1 1
    (by decide) (by decide)).2.2
